import Mathlib

/-!
Verification of mizreplace: scoped replacement inside `requiredModules = { ... }`

A shallow embedding of `mizreplace-requiredModules-cli.go`.

* A Go `[]byte` and a Go `string` are both sequences of bytes; they are
  modelled as `List Nat` (a byte is a natural number below 256; every theorem
  holds for all lists, and every concrete input uses ASCII bytes only).
* The `-1` sentinel of `bytes.Index`, `bytes.IndexByte` and of the local
  variable `close` is `none`; a found index is `some i`.
* The Go `int` depth counter is an `Int` (its magnitude is bounded by the
  length of the content, so 64-bit overflow cannot occur).
* The functions of the Go standard library (`bytes.Index`, `bytes.IndexByte`,
  `bytes.Count`, `bytes.Replace`, `bytes.ReplaceAll`, `utf8.DecodeRune`,
  `utf8.RuneCount`) are embedded from their library definitions.
-/

namespace MizReplace

/-- A byte sequence: Go `[]byte` or Go `string`. -/
abbrev Bytes := List Nat

/-- The bytes of an ASCII literal. -/
def ascii (s : String) : Bytes := s.data.map Char.toNat

/-- Constant `defaultSearch` (line 13). -/
def defaultSearch : Bytes := ascii "Vietnam Assets Pack by EightBall & Tobi"

/-- Constant `defaultReplace` (line 14). -/
def defaultReplace : Bytes := ascii "[VWV] Vietnam Assets Pack"

/-- The local `key` of `replaceInRequiredModules` (line 28). -/
def key : Bytes := ascii "requiredModules"

/-- The byte `'{'`. -/
def lbrace : Nat := 123

/-- The byte `'}'`. -/
def rbrace : Nat := 125

/-! ## Standard library: `bytes` and `unicode/utf8` -/

/-- Go `bytes.Index(s, sep)`: the index of the first instance of `sep` in `s`,
`none` (Go: `-1`) when `sep` is not present. -/
def Index : Bytes → Bytes → Option Nat
  | [], sep => if sep = [] then some 0 else none
  | b :: rest, sep =>
    if sep.isPrefixOf (b :: rest) then some 0
    else (Index rest sep).map (· + 1)

/-- Go `bytes.IndexByte(b, c)`: the index of the first instance of `c` in `b`,
`none` (Go: `-1`) when `c` is not present. -/
def IndexByte : Bytes → Nat → Option Nat
  | [], _ => none
  | b :: rest, c => if b = c then some 0 else (IndexByte rest c).map (· + 1)

/-- Table `first` of `unicode/utf8`: information about the first byte of a
UTF-8 sequence (`as = 0xF0`, `xx = 0xF1`, `s1 .. s7`). -/
def first (b : Nat) : Nat :=
  if b < 0x80 then 0xF0
  else if b < 0xC2 then 0xF1
  else if b < 0xE0 then 0x02
  else if b = 0xE0 then 0x13
  else if b < 0xED then 0x03
  else if b = 0xED then 0x23
  else if b < 0xF0 then 0x03
  else if b = 0xF0 then 0x34
  else if b < 0xF4 then 0x04
  else if b = 0xF4 then 0x44
  else 0xF1

/-- Table `acceptRanges` of `unicode/utf8`: the accepted range `(lo, hi)` of
the second byte of a sequence. -/
def acceptRanges (k : Nat) : Nat × Nat :=
  match k with
  | 0 => (0x80, 0xBF)
  | 1 => (0xA0, 0xBF)
  | 2 => (0x80, 0x9F)
  | 3 => (0x90, 0xBF)
  | 4 => (0x80, 0x8F)
  | _ => (0, 0)

/-- The `size` result of Go `utf8.DecodeRune(p)`: the width in bytes of the
first rune of `p`; an invalid encoding has width 1, the empty slice width 0. -/
def DecodeRuneSize : Bytes → Nat
  | [] => 0
  | p0 :: rest =>
    let x := first p0
    if x ≥ 0xF0 then 1
    else
      let sz := x % 8
      let accept := acceptRanges (x / 16)
      if rest.length + 1 < sz then 1
      else
        match rest with
        | [] => 1
        | b1 :: rest1 =>
          if b1 < accept.1 ∨ accept.2 < b1 then 1
          else if sz ≤ 2 then 2
          else
            match rest1 with
            | [] => 1
            | b2 :: rest2 =>
              if b2 < 0x80 ∨ 0xBF < b2 then 1
              else if sz ≤ 3 then 3
              else
                match rest2 with
                | [] => 1
                | b3 :: _ => if b3 < 0x80 ∨ 0xBF < b3 then 1 else 4

/-- The loop of Go `utf8.RuneCount(p)`: one rune per step, each step
advancing by the width of the rune at the front.  Every step consumes at
least one byte, so `p.length` steps always suffice. -/
def runeCountLoop : Nat → Bytes → Nat
  | 0, _ => 0
  | fuel + 1, p =>
    if p = [] then 0
    else 1 + runeCountLoop fuel (p.drop (DecodeRuneSize p))

/-- Go `utf8.RuneCount(p)`. -/
def RuneCount (p : Bytes) : Nat := runeCountLoop p.length p

/-- The loop of Go `bytes.Count(s, sep)` for a non-empty `sep`:
`for { i := Index(s, sep); if i == -1 { return n }; n++; s = s[i+len(sep):] }`.
Every iteration consumes at least one byte, so `s.length` iterations always
suffice. -/
def countLoop : Nat → Bytes → Bytes → Nat
  | 0, _, _ => 0
  | fuel + 1, s, sep =>
    match Index s sep with
    | none => 0
    | some i => 1 + countLoop fuel (s.drop (i + sep.length)) sep

/-- Go `bytes.Count(s, sep)`: the number of non-overlapping instances of
`sep` in `s`; for an empty `sep`, one more than the number of runes. -/
def Count (s sep : Bytes) : Nat :=
  if sep = [] then RuneCount s + 1 else countLoop s.length s sep

/-- The replacement loop of Go `bytes.Replace` (`for i := 0; i < n; i++`),
on the part of `s` that starts at `start`; `isFirst` is `i == 0`.
After the last iteration the rest of `s` is copied. -/
def replaceLoop (old new : Bytes) : Nat → Bool → Bytes → Bytes
  | 0, _, s => s
  | n + 1, isFirst, s =>
    if old = [] then
      let j := if isFirst then 0 else DecodeRuneSize s
      s.take j ++ new ++ replaceLoop old new n false (s.drop j)
    else
      match Index s old with
      | none => s -- not reached: `n` never exceeds `Count s old`
      | some j => s.take j ++ new ++ replaceLoop old new n false (s.drop (j + old.length))

/-- Go `bytes.ReplaceAll(s, old, new)`, that is `bytes.Replace(s, old, new, -1)`:
a copy of `s` with all non-overlapping instances of `old` replaced by `new`. -/
def ReplaceAll (s old new : Bytes) : Bytes :=
  let m := Count s old
  if m = 0 then s else replaceLoop old new m true s

/-! ## `replaceInRequiredModules` -/

/-- The brace scan of `replaceInRequiredModules` (lines 41-54), on the part of
`data` from index `i` on, with the current values of `depth` and `close`.
The `break` of line 51 is inside the `switch`, so it ends the `switch`
statement only and the `for` loop goes on to the next index. -/
def scanClose : Bytes → Nat → Int → Option Nat → Option Nat
  | [], _, _, close => close
  | b :: rest, i, depth, close =>
    if b = lbrace then scanClose rest (i + 1) (depth + 1) close
    else if b = rbrace then
      if depth - 1 = 0 then scanClose rest (i + 1) (depth - 1) (some i)
      else scanClose rest (i + 1) (depth - 1) close
    else scanClose rest (i + 1) depth close

/-- Function `replaceInRequiredModules(data, find, replace)` (lines 27-73). -/
def replaceInRequiredModules (data find replace : Bytes) : Bytes × Bool :=
  match Index data key with
  | none => (data, false)
  | some idx =>
    match IndexByte (data.drop idx) lbrace with
    | none => (data, false)
    | some o =>
      let opn := o + idx
      match scanClose (data.drop opn) opn 0 none with
      | none => (data, false)
      | some close =>
        let block := (data.take (close + 1)).drop opn
        let newBlock := ReplaceAll block find replace
        if block = newBlock then (data, false)
        else (data.take opn ++ newBlock ++ data.drop (close + 1), true)

/-- The block `(open, close)` that `replaceInRequiredModules` selects
(lines 28-58), `none` where the function returns early. -/
def selectedBlock (data : Bytes) : Option (Nat × Nat) :=
  match Index data key with
  | none => none
  | some idx =>
    match IndexByte (data.drop idx) lbrace with
    | none => none
    | some o =>
      match scanClose (data.drop (o + idx)) (o + idx) 0 none with
      | none => none
      | some close => some (o + idx, close)

/-! ## The entry loop and the argument handling of `main` -/

/-- Constant `zip.Deflate` of `archive/zip`. -/
def Deflate : Nat := 8

/-- Type `zip.FileHeader`: the entry name, the compression method, and all the
remaining fields (comment, flags, times, sizes, extra data), which `main`
never touches. -/
structure FileHeader where
  Name : Bytes
  Method : Nat
  others : Bytes
deriving DecidableEq, Repr

/-- An entry of `r.File`: its header (`f.FileHeader`, whose `Name` is `f.Name`)
and the bytes that `f.Open` followed by `io.ReadAll` yields. -/
structure File where
  FileHeader : FileHeader
  data : Bytes
deriving DecidableEq, Repr

/-- The literal `"mission"` of line 151. -/
def mission : Bytes := ascii "mission"

/-- The loop `for _, f := range r.File` of `main` (lines 138-168) on its
error-free path; every I/O failure ends the process with status 1 and is
outside this model.  The first argument after `find` and `replace` is the
rest of `r.File`, the second the current value of `replaced`; the result is
the sequence of `(h, data)` pairs handed to `w.CreateHeader` and `wr.Write`,
and the final value of `replaced`. -/
def entryLoop (find replace : Bytes) : List File → Bool → List (FileHeader × Bytes) × Bool
  | [], replaced => ([], replaced)
  | f :: fs, replaced =>
    let r :=
      if f.FileHeader.Name = mission then replaceInRequiredModules f.data find replace
      else (f.data, replaced)
    let h := { f.FileHeader with Method := Deflate }
    let out := entryLoop find replace fs r.2
    ((h, r.1) :: out.1, out.2)

/-- The run of lines 136-168: `replaced := false`, then the loop. -/
def transcode (find replace : Bytes) (files : List File) : List (FileHeader × Bytes) × Bool :=
  entryLoop find replace files false

/-- What a run of `main` does, in order. -/
inductive Event where
  | stdout (text : Bytes)
  | stderr (text : Bytes)
  | exit (status : Nat)
  | indexPanic
deriving DecidableEq, Repr

/-- The text that the `fmt.Fprintf` of lines 77-80 writes. -/
def usageText (prog : Bytes) : Bytes :=
  ascii "Usage: " ++ prog ++ ascii " <input.miz> <output.miz> [search] [replace]\n"

/-- Function `main` (lines 75-177) up to line 100, as a function of `os.Args`.
Everything from line 102 on (resolving the two paths, opening the input,
creating the output, the entry loop, the final messages) is the parameter
`body`, which receives `inMiz`, `outMiz`, `find` and `replace`. -/
def main (osArgs : List Bytes) (body : Bytes → Bytes → Bytes → Bytes → List Event) :
    List Event :=
  if osArgs.length < 3 ∨ osArgs.length > 5 then
    match osArgs[0]? with
    | none => [Event.indexPanic]
    | some prog => [Event.stderr (usageText prog), Event.exit 1]
  else
    let inMiz := osArgs.getD 1 []
    let outMiz := osArgs.getD 2 []
    let notice :=
      if osArgs.length < 4 then
        [Event.stdout (ascii "Using default search string: " ++ defaultSearch ++ ascii "\n"),
         Event.stdout (ascii "Using default replace string: " ++ defaultReplace ++ ascii "\n")]
      else []
    let find := if osArgs.length ≥ 4 then osArgs.getD 3 [] else defaultSearch
    let replace := if osArgs.length = 5 then osArgs.getD 4 [] else defaultReplace
    notice ++ body inMiz outMiz find replace

/-! ## Specification vocabulary -/

/-- Nesting depth over a byte range: the number of `'{'` minus the number
of `'}'`. -/
def braceDepth (l : Bytes) : Int := (l.count lbrace : Int) - (l.count rbrace : Int)

/-- The depth counter after the bytes `data[opn..i]` (both ends included). -/
def depthAt (data : Bytes) (opn i : Nat) : Int :=
  braceDepth ((data.take (i + 1)).drop opn)

/-- Index `i` is the first occurrence of `sep` in `s`. -/
def IsFirstIndex (s sep : Bytes) (i : Nat) : Prop :=
  sep <+: s.drop i ∧ ∀ j < i, ¬ sep <+: s.drop j

/-- Index `opn` is the first index at or after `idx` that holds the byte `c`. -/
def IsFirstByteFrom (data : Bytes) (c idx opn : Nat) : Prop :=
  idx ≤ opn ∧ data[opn]? = some c ∧ ∀ j < opn, idx ≤ j → data[j]? ≠ some c

/-- Index `c` is the matching close of the brace at `opn`: the first index
after `opn` at which the depth counter, 1 just after `opn`, is zero again. -/
def IsMatchingClose (data : Bytes) (opn c : Nat) : Prop :=
  opn < c ∧ c < data.length ∧ depthAt data opn c = 0 ∧
    ∀ j < c, opn ≤ j → depthAt data opn j ≠ 0

/-- Index `i` holds a `'}'` at which the running depth from `opn` is zero. -/
def IsZeroClose (data : Bytes) (opn i : Nat) : Prop :=
  data[i]? = some rbrace ∧ depthAt data opn i = 0

/-- Index `c` is the last index at or after `opn` that holds a `'}'` with
running depth zero. -/
def IsLastZeroClose (data : Bytes) (opn c : Nat) : Prop :=
  opn ≤ c ∧ IsZeroClose data opn c ∧
    ∀ j < data.length, c < j → ¬ IsZeroClose data opn j

instance (s sep : Bytes) (i : Nat) : Decidable (IsFirstIndex s sep i) := by
  unfold IsFirstIndex; infer_instance

instance (data : Bytes) (c idx opn : Nat) : Decidable (IsFirstByteFrom data c idx opn) := by
  unfold IsFirstByteFrom; infer_instance

instance (data : Bytes) (opn c : Nat) : Decidable (IsMatchingClose data opn c) := by
  unfold IsMatchingClose; infer_instance

instance (data : Bytes) (opn i : Nat) : Decidable (IsZeroClose data opn i) := by
  unfold IsZeroClose; infer_instance

instance (data : Bytes) (opn c : Nat) : Decidable (IsLastZeroClose data opn c) := by
  unfold IsLastZeroClose; infer_instance

/-! ## Facts about the library functions -/

theorem Index_eq_some_iff (s sep : Bytes) (i : Nat) :
    Index s sep = some i ↔ IsFirstIndex s sep i := by
  induction s generalizing i with
  | nil =>
    unfold Index IsFirstIndex
    by_cases h : sep = []
    · subst h
      simp only [if_true, Option.some.injEq, List.drop_nil, List.nil_prefix, not_true_eq_false,
        imp_false, not_lt, true_and]
      constructor
      · intro h; omega
      · intro h; have := h 0; omega
    · simp [h]
  | cons b rest ih =>
    unfold Index
    by_cases h : sep.isPrefixOf (b :: rest) = true
    · rw [if_pos h]
      have hp : sep <+: b :: rest := List.isPrefixOf_iff_prefix.mp h
      constructor
      · intro hi
        simp only [Option.some.injEq] at hi
        subst hi
        exact ⟨by simpa using hp, by intro j hj; omega⟩
      · rintro ⟨_, h2⟩
        cases i with
        | zero => rfl
        | succ k => exact absurd (by simpa using hp) (h2 0 (by omega))
    · rw [if_neg h]
      have hp : ¬ sep <+: b :: rest := fun hp => h (List.isPrefixOf_iff_prefix.mpr hp)
      cases i with
      | zero =>
        constructor
        · intro hi
          simp only [Option.map_eq_some', Nat.add_eq_zero, one_ne_zero, and_false,
            exists_false] at hi
        · rintro ⟨h1, _⟩
          exact absurd (by simpa using h1) hp
      | succ k =>
        have : (Index rest sep).map (· + 1) = some (k + 1) ↔ Index rest sep = some k := by
          cases Index rest sep <;> simp
        rw [this, ih k]
        unfold IsFirstIndex
        simp only [List.drop_succ_cons]
        constructor
        · rintro ⟨h1, h2⟩
          refine ⟨h1, ?_⟩
          intro j hj
          cases j with
          | zero => simpa using hp
          | succ j => simpa using h2 j (by omega)
        · rintro ⟨h1, h2⟩
          refine ⟨h1, ?_⟩
          intro j hj
          simpa using h2 (j + 1) (by omega)

theorem Index_eq_none_iff (s sep : Bytes) : Index s sep = none ↔ ¬ sep <:+: s := by
  induction s with
  | nil =>
    unfold Index
    by_cases h : sep = []
    · subst h; simp
    · simp [h]
  | cons b rest ih =>
    unfold Index
    by_cases h : sep.isPrefixOf (b :: rest) = true
    · rw [if_pos h]
      have hp : sep <+: b :: rest := List.isPrefixOf_iff_prefix.mp h
      simp [hp.isInfix]
    · rw [if_neg h]
      have hp : ¬ sep <+: b :: rest := fun hp => h (List.isPrefixOf_iff_prefix.mpr hp)
      rw [Option.map_eq_none', ih, List.infix_cons_iff]
      tauto

theorem IndexByte_eq_some_iff (l : Bytes) (c o : Nat) :
    IndexByte l c = some o ↔ l[o]? = some c ∧ ∀ j < o, l[j]? ≠ some c := by
  induction l generalizing o with
  | nil => simp [IndexByte]
  | cons b rest ih =>
    unfold IndexByte
    by_cases h : b = c
    · rw [if_pos h]
      subst h
      constructor
      · intro ho
        simp only [Option.some.injEq] at ho
        subst ho
        exact ⟨by simp, by intro j hj; omega⟩
      · rintro ⟨_, h2⟩
        cases o with
        | zero => rfl
        | succ k => exact absurd (by simp) (h2 0 (by omega))
    · rw [if_neg h]
      cases o with
      | zero =>
        constructor
        · intro ho
          simp only [Option.map_eq_some', Nat.add_eq_zero, one_ne_zero, and_false,
            exists_false] at ho
        · rintro ⟨h1, _⟩
          simp only [List.getElem?_cons_zero, Option.some.injEq] at h1
          exact absurd h1 h
      | succ k =>
        have : (IndexByte rest c).map (· + 1) = some (k + 1) ↔ IndexByte rest c = some k := by
          cases IndexByte rest c <;> simp
        rw [this, ih k]
        simp only [List.getElem?_cons_succ]
        constructor
        · rintro ⟨h1, h2⟩
          refine ⟨h1, ?_⟩
          intro j hj
          cases j with
          | zero => simpa using h
          | succ j => simpa using h2 j (by omega)
        · rintro ⟨h1, h2⟩
          refine ⟨h1, ?_⟩
          intro j hj
          simpa using h2 (j + 1) (by omega)

theorem IndexByte_eq_none_iff (l : Bytes) (c : Nat) : IndexByte l c = none ↔ c ∉ l := by
  induction l with
  | nil => simp [IndexByte]
  | cons b rest ih =>
    unfold IndexByte
    by_cases h : b = c
    · simp [h]
    · rw [if_neg h, Option.map_eq_none', ih]
      simp [Ne.symm h]

theorem braceDepth_nil : braceDepth [] = 0 := by simp [braceDepth]

theorem braceDepth_cons (b : Nat) (l : Bytes) :
    braceDepth (b :: l) = braceDepth [b] + braceDepth l := by
  unfold braceDepth
  simp only [List.count_cons, List.count_nil]
  push_cast
  ring

theorem scanClose_cons (b : Nat) (rest : Bytes) (i : Nat) (d : Int) (c : Option Nat) :
    scanClose (b :: rest) i d c =
      scanClose rest (i + 1) (d + braceDepth [b])
        (if b = rbrace ∧ d + braceDepth [b] = 0 then some i else c) := by
  conv_lhs => rw [scanClose]
  by_cases h1 : b = lbrace
  · subst h1
    simp [braceDepth, lbrace, rbrace]
  · by_cases h2 : b = rbrace
    · subst h2
      have hd : braceDepth [rbrace] = -1 := by simp [braceDepth, lbrace, rbrace]
      rw [if_neg h1, if_pos rfl, hd]
      have e : d + -1 = d - 1 := by ring
      rw [e]
      by_cases h3 : d - 1 = 0
      · simp [h3]
      · simp [h3]
    · have hd : braceDepth [b] = 0 := by
        have h1' : ¬ lbrace = b := fun h => h1 h.symm
        have h2' : ¬ rbrace = b := fun h => h2 h.symm
        simp [braceDepth, List.count_cons, h1, h2, h1', h2']
      rw [if_neg h1, if_neg h2, hd]
      simp [h2]

/-- The scan returns the last index that holds a closing brace at running
depth zero, and the incoming `close` when there is none. -/
theorem scanClose_spec (l : Bytes) (i : Nat) (d : Int) (c : Option Nat) :
    (scanClose l i d c = c ∧
        ∀ k < l.length, ¬ (l[k]? = some rbrace ∧ d + braceDepth (l.take (k + 1)) = 0)) ∨
    (∃ k, scanClose l i d c = some (i + k) ∧
        (l[k]? = some rbrace ∧ d + braceDepth (l.take (k + 1)) = 0) ∧
        ∀ k2 < l.length, k < k2 →
          ¬ (l[k2]? = some rbrace ∧ d + braceDepth (l.take (k2 + 1)) = 0)) := by
  induction l generalizing i d c with
  | nil => left; simp [scanClose]
  | cons b rest ih =>
    rw [scanClose_cons]
    have step : ∀ k, ((b :: rest)[k + 1]? = some rbrace ∧
        d + braceDepth ((b :: rest).take (k + 1 + 1)) = 0) ↔
        (rest[k]? = some rbrace ∧ d + braceDepth [b] + braceDepth (rest.take (k + 1)) = 0) := by
      intro k
      rw [List.getElem?_cons_succ, List.take_succ_cons, braceDepth_cons, add_assoc]
    have zero : ((b :: rest)[0]? = some rbrace ∧ d + braceDepth ((b :: rest).take (0 + 1)) = 0) ↔
        (b = rbrace ∧ d + braceDepth [b] = 0) := by
      simp
    rcases ih (i + 1) (d + braceDepth [b])
        (if b = rbrace ∧ d + braceDepth [b] = 0 then some i else c) with ⟨h1, h2⟩ | ⟨k, h1, h2, h3⟩
    · by_cases h0 : b = rbrace ∧ d + braceDepth [b] = 0
      · right
        refine ⟨0, ?_, zero.mpr h0, ?_⟩
        · rw [h1, if_pos h0]; rfl
        · intro k2 hk2 hlt
          obtain ⟨k3, rfl⟩ : ∃ k3, k2 = k3 + 1 := ⟨k2 - 1, by omega⟩
          rw [step]
          exact h2 k3 (by simpa using hk2)
      · left
        refine ⟨by rw [h1, if_neg h0], ?_⟩
        intro k hk
        cases k with
        | zero => rw [zero]; exact h0
        | succ k3 => rw [step]; exact h2 k3 (by simpa using hk)
    · right
      refine ⟨k + 1, ?_, (step k).mpr h2, ?_⟩
      · rw [h1]; congr 1; omega
      · intro k2 hk2 hlt
        obtain ⟨k3, rfl⟩ : ∃ k3, k2 = k3 + 1 := ⟨k2 - 1, by omega⟩
        rw [step]
        exact h3 k3 (by simpa using hk2) (by omega)

theorem depthAt_add (data : Bytes) (opn k : Nat) :
    depthAt data opn (opn + k) = braceDepth ((data.drop opn).take (k + 1)) := by
  unfold depthAt
  rw [List.drop_take]
  congr 2
  omega

theorem isZeroClose_add (data : Bytes) (opn k : Nat) :
    IsZeroClose data opn (opn + k) ↔
      ((data.drop opn)[k]? = some rbrace ∧ (0 : Int) + braceDepth ((data.drop opn).take (k + 1)) = 0) := by
  unfold IsZeroClose
  rw [depthAt_add, List.getElem?_drop, zero_add]

/-- The scan of lines 41-54, started at `opn`, in terms of the content: it
yields the last zero-depth closing brace at or after `opn`, or nothing when
there is none. -/
theorem scanClose_data (data : Bytes) (opn : Nat) :
    (scanClose (data.drop opn) opn 0 none = none ∧
        ∀ j < data.length, opn ≤ j → ¬ IsZeroClose data opn j) ∨
    (∃ c, scanClose (data.drop opn) opn 0 none = some c ∧ IsLastZeroClose data opn c) := by
  rcases scanClose_spec (data.drop opn) opn 0 none with ⟨h1, h2⟩ | ⟨k, h1, h2, h3⟩
  · left
    refine ⟨h1, ?_⟩
    intro j hj hle
    obtain ⟨k, rfl⟩ : ∃ k, j = opn + k := ⟨j - opn, by omega⟩
    rw [isZeroClose_add]
    exact h2 k (by rw [List.length_drop]; omega)
  · right
    refine ⟨opn + k, h1, by omega, (isZeroClose_add data opn k).mpr h2, ?_⟩
    intro j hj hlt
    obtain ⟨k2, rfl⟩ : ∃ k2, j = opn + k2 := ⟨j - opn, by omega⟩
    rw [isZeroClose_add]
    exact h3 k2 (by rw [List.length_drop]; omega) (by omega)

theorem isZeroClose_lt_length {data : Bytes} {opn i : Nat} (h : IsZeroClose data opn i) :
    i < data.length := by
  by_contra hge
  have : data[i]? = none := List.getElem?_eq_none (by omega)
  rw [h.1] at this
  exact absurd this (by simp)

theorem isLastZeroClose_unique {data : Bytes} {opn c1 c2 : Nat}
    (h1 : IsLastZeroClose data opn c1) (h2 : IsLastZeroClose data opn c2) : c1 = c2 := by
  rcases Nat.lt_trichotomy c1 c2 with h | h | h
  · exact absurd h2.2.1 (h1.2.2 c2 (isZeroClose_lt_length h2.2.1) h)
  · exact h
  · exact absurd h1.2.1 (h2.2.2 c1 (isZeroClose_lt_length h1.2.1) h)

/-- The two library calls of lines 29 and 35 find what the specification
vocabulary describes. -/
theorem locate_of_spec {data : Bytes} {idx opn : Nat}
    (hidx : IsFirstIndex data key idx) (hopn : IsFirstByteFrom data lbrace idx opn) :
    Index data key = some idx ∧ IndexByte (data.drop idx) lbrace = some (opn - idx) := by
  refine ⟨(Index_eq_some_iff data key idx).mpr hidx, ?_⟩
  obtain ⟨hle, hat, hbefore⟩ := hopn
  rw [IndexByte_eq_some_iff]
  constructor
  · rw [List.getElem?_drop]
    have : idx + (opn - idx) = opn := by omega
    rw [this]; exact hat
  · intro j hj
    rw [List.getElem?_drop]
    exact hbefore (idx + j) (by omega) (by omega)

/-- The function in terms of the result of the brace scan, once the marker
and the opening brace are located. -/
theorem replaceInRequiredModules_of_located {data : Bytes} {idx opn : Nat}
    (hidx : IsFirstIndex data key idx) (hopn : IsFirstByteFrom data lbrace idx opn)
    (find replace : Bytes) :
    replaceInRequiredModules data find replace =
      match scanClose (data.drop opn) opn 0 none with
      | none => (data, false)
      | some close =>
        if (data.take (close + 1)).drop opn
            = ReplaceAll ((data.take (close + 1)).drop opn) find replace then (data, false)
        else (data.take opn ++ ReplaceAll ((data.take (close + 1)).drop opn) find replace
                ++ data.drop (close + 1), true) := by
  obtain ⟨h1, h2⟩ := locate_of_spec hidx hopn
  have hle : idx ≤ opn := hopn.1
  have e : opn - idx + idx = opn := by omega
  unfold replaceInRequiredModules
  simp only [h1, h2, e]

theorem selectedBlock_of_located {data : Bytes} {idx opn : Nat}
    (hidx : IsFirstIndex data key idx) (hopn : IsFirstByteFrom data lbrace idx opn) :
    selectedBlock data = (scanClose (data.drop opn) opn 0 none).map (fun c => (opn, c)) := by
  obtain ⟨h1, h2⟩ := locate_of_spec hidx hopn
  have hle : idx ≤ opn := hopn.1
  have e : opn - idx + idx = opn := by omega
  unfold selectedBlock
  simp only [h1, h2, e]
  cases scanClose (data.drop opn) opn 0 none <;> rfl

/-- Cutting the content at `opn` and after `c` loses nothing. -/
theorem splice_self (data : Bytes) {opn c : Nat} (h : opn ≤ c) :
    data.take opn ++ (data.take (c + 1)).drop opn ++ data.drop (c + 1) = data := by
  have e : data.take opn = (data.take (c + 1)).take opn := by
    rw [List.take_take]; congr 1; omega
  rw [e, List.take_append_drop, List.take_append_drop]

/-- Either nothing is returned changed, or a block `[opn, c]` with `opn ≤ c`
was rewritten to different bytes and spliced back. -/
theorem replaceInRequiredModules_cases (data find replace : Bytes) :
    replaceInRequiredModules data find replace = (data, false) ∨
    ∃ opn c, opn ≤ c ∧
      ReplaceAll ((data.take (c + 1)).drop opn) find replace ≠ (data.take (c + 1)).drop opn ∧
      replaceInRequiredModules data find replace =
        (data.take opn ++ ReplaceAll ((data.take (c + 1)).drop opn) find replace
          ++ data.drop (c + 1), true) := by
  cases h1 : Index data key with
  | none => left; simp only [replaceInRequiredModules, h1]
  | some idx =>
    cases h2 : IndexByte (data.drop idx) lbrace with
    | none => left; simp only [replaceInRequiredModules, h1, h2]
    | some o =>
      rcases scanClose_data data (o + idx) with ⟨h3, _⟩ | ⟨c, h3, h4⟩
      · left; simp only [replaceInRequiredModules, h1, h2, h3]
      · by_cases h5 : (data.take (c + 1)).drop (o + idx)
            = ReplaceAll ((data.take (c + 1)).drop (o + idx)) find replace
        · left
          simp only [replaceInRequiredModules, h1, h2, h3]
          rw [if_pos h5]
        · right
          refine ⟨o + idx, c, h4.1, fun h => h5 h.symm, ?_⟩
          simp only [replaceInRequiredModules, h1, h2, h3]
          rw [if_neg h5]

theorem ReplaceAll_of_Index_none (s old new : Bytes) (hold : old ≠ [])
    (h : Index s old = none) : ReplaceAll s old new = s := by
  have hc : Count s old = 0 := by
    unfold Count
    rw [if_neg hold]
    cases s.length with
    | zero => rfl
    | succ n => simp only [countLoop, h]
  simp only [ReplaceAll, hc, if_true]

/-- A non-empty search string that does not occur leaves the bytes as they are. -/
theorem ReplaceAll_of_absent (s old new : Bytes) (hold : old ≠ [])
    (h : ¬ old <:+: s) : ReplaceAll s old new = s :=
  ReplaceAll_of_Index_none s old new hold ((Index_eq_none_iff s old).mpr h)

theorem entryLoop_fst (find replace : Bytes) (files : List File) (replaced : Bool) :
    (entryLoop find replace files replaced).1 =
      files.map (fun f =>
        ({ f.FileHeader with Method := Deflate },
          if f.FileHeader.Name = mission then (replaceInRequiredModules f.data find replace).1
          else f.data)) := by
  induction files generalizing replaced with
  | nil => rfl
  | cons f fs ih =>
    simp only [entryLoop, List.map_cons, ih]
    by_cases h : f.FileHeader.Name = mission <;> simp [h]

theorem entryLoop_snd_of_no_mission (find replace : Bytes) (files : List File) (replaced : Bool)
    (h : ∀ f ∈ files, f.FileHeader.Name ≠ mission) :
    (entryLoop find replace files replaced).2 = replaced := by
  induction files generalizing replaced with
  | nil => rfl
  | cons f fs ih =>
    have hf : f.FileHeader.Name ≠ mission := h f (List.mem_cons_self _ _)
    simp only [entryLoop, if_neg hf]
    exact ih replaced (fun g hg => h g (List.mem_cons_of_mem _ hg))

theorem entryLoop_snd_append (find replace : Bytes) (pre : List File) (f : File)
    (post : List File) (replaced : Bool) (hf : f.FileHeader.Name = mission) :
    (entryLoop find replace (pre ++ f :: post) replaced).2 =
      (entryLoop find replace post (replaceInRequiredModules f.data find replace).2).2 := by
  induction pre generalizing replaced with
  | nil => simp only [List.nil_append, entryLoop, if_pos hf]
  | cons g gs ih =>
    simp only [List.cons_append, entryLoop]
    exact ih _

/-- The function in terms of the block it selects. -/
theorem replaceInRequiredModules_of_selected (data find replace : Bytes) :
    replaceInRequiredModules data find replace =
      match selectedBlock data with
      | none => (data, false)
      | some (opn, close) =>
        if (data.take (close + 1)).drop opn
            = ReplaceAll ((data.take (close + 1)).drop opn) find replace then (data, false)
        else (data.take opn ++ ReplaceAll ((data.take (close + 1)).drop opn) find replace
                ++ data.drop (close + 1), true) := by
  cases h1 : Index data key with
  | none => simp only [replaceInRequiredModules, selectedBlock, h1]
  | some idx =>
    cases h2 : IndexByte (data.drop idx) lbrace with
    | none => simp only [replaceInRequiredModules, selectedBlock, h1, h2]
    | some o =>
      cases h3 : scanClose (data.drop (o + idx)) (o + idx) 0 none with
      | none => simp only [replaceInRequiredModules, selectedBlock, h1, h2, h3]
      | some c => simp only [replaceInRequiredModules, selectedBlock, h1, h2, h3]

/-- A non-empty search string that does not occur in the block the code
selects changes nothing. -/
theorem unchanged_of_absent_from_selected (data find replace : Bytes) (opn close : Nat)
    (hsel : selectedBlock data = some (opn, close)) (hfind : find ≠ [])
    (habsent : ¬ find <:+: (data.take (close + 1)).drop opn) :
    replaceInRequiredModules data find replace = (data, false) := by
  rw [replaceInRequiredModules_of_selected, hsel]
  simp only [ReplaceAll_of_absent _ find replace hfind habsent, if_true]

/-! ## The loops of the library functions always finish -/

theorem DecodeRuneSize_pos (b : Nat) (rest : Bytes) : 1 ≤ DecodeRuneSize (b :: rest) := by
  unfold DecodeRuneSize
  simp only
  repeat' split
  all_goals omega

theorem Index_nil_of_ne (sep : Bytes) (h : sep ≠ []) : Index [] sep = none := by
  simp [Index, h]

theorem Index_some_le {s sep : Bytes} {j : Nat} (hsep : sep ≠ [])
    (h : Index s sep = some j) : j + sep.length ≤ s.length := by
  have hp := ((Index_eq_some_iff s sep j).mp h).1
  have h1 := hp.length_le
  rw [List.length_drop] at h1
  have h2 : 0 < sep.length := List.length_pos.mpr hsep
  omega

theorem countLoop_nil (f : Nat) (sep : Bytes) (h : sep ≠ []) : countLoop f [] sep = 0 := by
  cases f with
  | zero => rfl
  | succ n => simp only [countLoop, Index_nil_of_ne sep h]

/-- The loop of `bytes.Count` needs no more iterations than the slice has
bytes: every larger bound gives the same count. -/
theorem countLoop_fuel (sep : Bytes) (hsep : sep ≠ []) (f1 f2 : Nat) (s : Bytes)
    (h1 : s.length ≤ f1) (h2 : s.length ≤ f2) : countLoop f1 s sep = countLoop f2 s sep := by
  induction f1 generalizing f2 s with
  | zero =>
    have : s = [] := List.length_eq_zero.mp (by omega)
    subst this
    rw [countLoop_nil _ _ hsep, countLoop_nil _ _ hsep]
  | succ n ih =>
    cases f2 with
    | zero =>
      have : s = [] := List.length_eq_zero.mp (by omega)
      subst this
      rw [countLoop_nil _ _ hsep, countLoop_nil _ _ hsep]
    | succ m =>
      simp only [countLoop]
      cases hi : Index s sep with
      | none => rfl
      | some i =>
        simp only
        have hle := Index_some_le hsep hi
        have h0 : 0 < sep.length := List.length_pos.mpr hsep
        rw [ih m (s.drop (i + sep.length)) (by rw [List.length_drop]; omega)
          (by rw [List.length_drop]; omega)]

theorem runeCountLoop_nil (f : Nat) : runeCountLoop f [] = 0 := by
  cases f with
  | zero => rfl
  | succ n => simp [runeCountLoop]

/-- The loop of `utf8.RuneCount` needs no more steps than the slice has bytes. -/
theorem runeCountLoop_fuel (f1 f2 : Nat) (p : Bytes)
    (h1 : p.length ≤ f1) (h2 : p.length ≤ f2) : runeCountLoop f1 p = runeCountLoop f2 p := by
  induction f1 generalizing f2 p with
  | zero =>
    have : p = [] := List.length_eq_zero.mp (by omega)
    subst this
    rw [runeCountLoop_nil, runeCountLoop_nil]
  | succ n ih =>
    cases f2 with
    | zero =>
      have : p = [] := List.length_eq_zero.mp (by omega)
      subst this
      rw [runeCountLoop_nil, runeCountLoop_nil]
    | succ m =>
      cases p with
      | nil => rw [runeCountLoop_nil, runeCountLoop_nil]
      | cons b rest =>
        simp only [runeCountLoop, if_neg (List.cons_ne_nil b rest)]
        have hpos := DecodeRuneSize_pos b rest
        simp only [List.length_cons] at h1 h2
        rw [ih m ((b :: rest).drop (DecodeRuneSize (b :: rest)))
          (by rw [List.length_drop, List.length_cons]; omega)
          (by rw [List.length_drop, List.length_cons]; omega)]

theorem replaceLoop_flag (old new : Bytes) (hold : old ≠ []) (n : Nat) (b1 b2 : Bool)
    (s : Bytes) : replaceLoop old new n b1 s = replaceLoop old new n b2 s := by
  cases n with
  | zero => rfl
  | succ n => simp only [replaceLoop, if_neg hold]

/-- For a non-empty `old`, `bytes.ReplaceAll` replaces the first instance and
goes on behind it. -/
theorem ReplaceAll_of_Index_some (s old new : Bytes) (hold : old ≠ []) (j : Nat)
    (h : Index s old = some j) :
    ReplaceAll s old new =
      s.take j ++ new ++ ReplaceAll (s.drop (j + old.length)) old new := by
  have hle := Index_some_le hold h
  have h0 : 0 < old.length := List.length_pos.mpr hold
  obtain ⟨n, hn⟩ : ∃ n, s.length = n + 1 := ⟨s.length - 1, by omega⟩
  have hc : Count s old = 1 + Count (s.drop (j + old.length)) old := by
    unfold Count
    rw [if_neg hold, if_neg hold, hn]
    simp only [countLoop, h]
    rw [countLoop_fuel old hold n (s.drop (j + old.length)).length _
      (by rw [List.length_drop]; omega) (le_refl _)]
  unfold ReplaceAll
  simp only [hc]
  rw [if_neg (by omega), Nat.add_comm 1]
  simp only [replaceLoop, if_neg hold, h]
  by_cases hz : Count (s.drop (j + old.length)) old = 0
  · rw [hz, if_pos rfl]; rfl
  · rw [if_neg hz, replaceLoop_flag old new hold _ false true]

/-! ## The claims -/

/-- C3 (unterminated block): when the marker occurs and is followed by an
opening brace at `opn`, and the depth counter started at `opn` is never zero
at any later index of the content, `replaceInRequiredModules` returns the
content itself and `changed = false`, whatever `find` and `replace` are. -/
theorem C3_unterminated_block_unchanged (data find replace : Bytes) (idx opn : Nat)
    (hidx : IsFirstIndex data key idx) (hopn : IsFirstByteFrom data lbrace idx opn)
    (hnever : ∀ i < data.length, opn ≤ i → depthAt data opn i ≠ 0) :
    replaceInRequiredModules data find replace = (data, false) := by
  rw [replaceInRequiredModules_of_located hidx hopn]
  rcases scanClose_data data opn with ⟨h, _⟩ | ⟨c, _, hc⟩
  · simp only [h]
  · exact absurd hc.2.1.2 (hnever c (isZeroClose_lt_length hc.2.1) hc.1)

theorem C3_unterminated_block_unchanged_witness :
    replaceInRequiredModules (ascii "requiredModules=\x7b\x7ba\x7db") (ascii "a") (ascii "c")
      = (ascii "requiredModules=\x7b\x7ba\x7db", false) :=
  C3_unterminated_block_unchanged (ascii "requiredModules=\x7b\x7ba\x7db") (ascii "a") (ascii "c") 0 16
    (by decide) (by decide) (by decide)

/-- C5 (the changed flag is exact): `changed` is true exactly when the
returned bytes differ from the input bytes, and when `changed` is false the
returned bytes are the input. -/
theorem C5_changed_flag_exact (data find replace : Bytes) :
    ((replaceInRequiredModules data find replace).2 = true ↔
        (replaceInRequiredModules data find replace).1 ≠ data) ∧
    ((replaceInRequiredModules data find replace).2 = false →
        (replaceInRequiredModules data find replace).1 = data) := by
  rcases replaceInRequiredModules_cases data find replace with h | ⟨opn, c, hle, hne, h⟩
  · rw [h]; simp
  · rw [h]
    have hd : data.take opn ++ ReplaceAll ((data.take (c + 1)).drop opn) find replace
        ++ data.drop (c + 1) ≠ data := by
      intro heq
      have hs := splice_self data hle
      have h1 := List.append_cancel_right (heq.trans hs.symm)
      exact hne (List.append_cancel_left h1)
    exact ⟨⟨fun _ => hd, fun _ => rfl⟩, fun hf => absurd hf (by simp)⟩

theorem C5_changed_flag_exact_witness :
    (replaceInRequiredModules (ascii "requiredModules=\x7ba\x7d") (ascii "a") (ascii "a")).2 = false ∧
    (replaceInRequiredModules (ascii "requiredModules=\x7ba\x7d") (ascii "a") (ascii "a")).1
      = ascii "requiredModules=\x7ba\x7d" :=
  ⟨by decide,
   (C5_changed_flag_exact (ascii "requiredModules=\x7ba\x7d") (ascii "a") (ascii "a")).2 (by decide)⟩

/-- C6 (no block located means no change): when `"requiredModules"` does not
occur in the content, or no `'{'` occurs at or after its first occurrence,
`replaceInRequiredModules` returns the content itself and `changed = false`. -/
theorem C6_no_block_no_change (data find replace : Bytes)
    (h : ¬ key <:+: data ∨ ∃ idx, IsFirstIndex data key idx ∧ lbrace ∉ data.drop idx) :
    replaceInRequiredModules data find replace = (data, false) := by
  rcases h with h | ⟨idx, hidx, hno⟩
  · have h1 := (Index_eq_none_iff data key).mpr h
    simp only [replaceInRequiredModules, h1]
  · have h1 := (Index_eq_some_iff data key idx).mpr hidx
    have h2 := (IndexByte_eq_none_iff (data.drop idx) lbrace).mpr hno
    simp only [replaceInRequiredModules, h1, h2]

theorem C6_no_block_no_change_witness :
    replaceInRequiredModules (ascii "required\x7ba\x7d") (ascii "a") (ascii "b")
        = (ascii "required\x7ba\x7d", false) ∧
    replaceInRequiredModules (ascii "\x7ba\x7drequiredModules=a") (ascii "a") (ascii "b")
        = (ascii "\x7ba\x7drequiredModules=a", false) :=
  ⟨C6_no_block_no_change (ascii "required\x7ba\x7d") (ascii "a") (ascii "b") (Or.inl (by decide)),
   C6_no_block_no_change (ascii "\x7ba\x7drequiredModules=a") (ascii "a") (ascii "b")
     (Or.inr ⟨3, by decide, by decide⟩)⟩

/-- C10 (what the brace scan selects): when the marker occurs and is followed
by an opening brace at `opn`, the loop runs to the end of the content, so
(1) when no index at or after `opn` holds a `'}'` at running depth zero, no
block is selected and the content is returned unchanged; (2) otherwise the
selected block is `[opn, c]` where `c` is the LAST index that holds a `'}'`
at running depth zero, and the result is `content[0..opn)`, then
`ReplaceAll` of `content[opn..c]`, then `content(c..end]`, with `changed`
telling whether the block was altered; (3) one of the two cases applies. -/
theorem C10_scan_selects_last_zero_close (data find replace : Bytes) (idx opn : Nat)
    (hidx : IsFirstIndex data key idx) (hopn : IsFirstByteFrom data lbrace idx opn) :
    ((∀ j < data.length, opn ≤ j → ¬ IsZeroClose data opn j) →
        selectedBlock data = none ∧
        replaceInRequiredModules data find replace = (data, false)) ∧
    (∀ c, IsLastZeroClose data opn c →
        selectedBlock data = some (opn, c) ∧
        replaceInRequiredModules data find replace =
          (data.take opn ++ ReplaceAll ((data.take (c + 1)).drop opn) find replace
              ++ data.drop (c + 1),
            decide (ReplaceAll ((data.take (c + 1)).drop opn) find replace
              ≠ (data.take (c + 1)).drop opn))) ∧
    ((∀ j < data.length, opn ≤ j → ¬ IsZeroClose data opn j) ∨
        ∃ c, IsLastZeroClose data opn c) := by
  rw [replaceInRequiredModules_of_located hidx hopn, selectedBlock_of_located hidx hopn]
  refine ⟨?_, ?_, ?_⟩
  · intro hnone
    rcases scanClose_data data opn with ⟨h, _⟩ | ⟨c, _, hc⟩
    · simp only [h, Option.map_none', and_self]
    · exact absurd hc.2.1 (hnone c (isZeroClose_lt_length hc.2.1) hc.1)
  · intro c hc
    rcases scanClose_data data opn with ⟨_, h⟩ | ⟨c2, h, hc2⟩
    · exact absurd hc.2.1 (h c (isZeroClose_lt_length hc.2.1) hc.1)
    · have e : c2 = c := isLastZeroClose_unique hc2 hc
      subst e
      simp only [h, Option.map_some', true_and]
      by_cases h5 : (data.take (c2 + 1)).drop opn
          = ReplaceAll ((data.take (c2 + 1)).drop opn) find replace
      · rw [if_pos h5, ← h5]
        simp only [ne_eq, not_true_eq_false, decide_False, Prod.mk.injEq, and_true]
        exact (splice_self data hc.1).symm
      · rw [if_neg h5]
        have h6 : ReplaceAll ((data.take (c2 + 1)).drop opn) find replace
            ≠ (data.take (c2 + 1)).drop opn := fun h => h5 h.symm
        simp [h6]
  · rcases scanClose_data data opn with ⟨_, h⟩ | ⟨c, _, hc⟩
    · exact Or.inl h
    · exact Or.inr ⟨c, hc⟩

theorem C10_scan_selects_last_zero_close_witness :
    selectedBlock (ascii "requiredModules=\x7ba\x7d,d=\x7ba\x7d") = some (16, 24) ∧
    replaceInRequiredModules (ascii "requiredModules=\x7ba\x7d,d=\x7ba\x7d") (ascii "a") (ascii "b") =
      (ascii "requiredModules=" ++ ReplaceAll (ascii "\x7ba\x7d,d=\x7ba\x7d") (ascii "a") (ascii "b") ++ [],
        decide (ReplaceAll (ascii "\x7ba\x7d,d=\x7ba\x7d") (ascii "a") (ascii "b") ≠ ascii "\x7ba\x7d,d=\x7ba\x7d")) :=
  (C10_scan_selects_last_zero_close (ascii "requiredModules=\x7ba\x7d,d=\x7ba\x7d") (ascii "a") (ascii "b")
    0 16 (by decide) (by decide)).2.1 24 (by decide)

/-- C7 (archive fidelity of the entry loop): the output has as many entries
as the input, in the same order; the entry at each position keeps the name
(and every other header field) of the input entry at that position, has
compression method Deflate, has the input bytes when the name is not
`"mission"`, and has the first component of `replaceInRequiredModules` of
the input bytes when the name is `"mission"`. -/
theorem C7_archive_fidelity (find replace : Bytes) (files : List File) :
    (transcode find replace files).1.length = files.length ∧
    ∀ (i : Nat) (f : File), files[i]? = some f →
      ∃ (h : FileHeader) (d : Bytes), (transcode find replace files).1[i]? = some (h, d) ∧
        h.Name = f.FileHeader.Name ∧ h.others = f.FileHeader.others ∧ h.Method = Deflate ∧
        (f.FileHeader.Name ≠ mission → d = f.data) ∧
        (f.FileHeader.Name = mission →
          d = (replaceInRequiredModules f.data find replace).1) := by
  unfold transcode
  rw [entryLoop_fst]
  refine ⟨by simp, ?_⟩
  intro i f hf
  refine ⟨{ f.FileHeader with Method := Deflate },
    if f.FileHeader.Name = mission then (replaceInRequiredModules f.data find replace).1
    else f.data, by rw [List.getElem?_map, hf]; rfl, rfl, rfl, rfl, ?_, ?_⟩
  · intro hne; rw [if_neg hne]
  · intro heq; rw [if_pos heq]

theorem C7_archive_fidelity_witness :
    ∃ (h : FileHeader) (d : Bytes), (transcode (ascii "a") (ascii "b")
        [⟨⟨ascii "options", 0, []⟩, ascii "requiredModules=\x7ba\x7d"⟩,
         ⟨⟨mission, 0, []⟩, ascii "requiredModules=\x7ba\x7d"⟩]).1[1]? = some (h, d) ∧
      h.Name = mission ∧ h.others = [] ∧ h.Method = Deflate ∧
      (mission ≠ mission → d = ascii "requiredModules=\x7ba\x7d") ∧
      (mission = mission →
        d = (replaceInRequiredModules (ascii "requiredModules=\x7ba\x7d") (ascii "a") (ascii "b")).1) :=
  (C7_archive_fidelity (ascii "a") (ascii "b")
    [⟨⟨ascii "options", 0, []⟩, ascii "requiredModules=\x7ba\x7d"⟩,
     ⟨⟨mission, 0, []⟩, ascii "requiredModules=\x7ba\x7d"⟩]).2 1
    ⟨⟨mission, 0, []⟩, ascii "requiredModules=\x7ba\x7d"⟩ rfl

/-- C8 (overall changed flag of the entry loop): the final flag is false when
no entry is named `"mission"`; otherwise it is the `changed` result of
`replaceInRequiredModules` on the last entry named `"mission"`; with exactly
one such entry it is true exactly when the editor reported a change. -/
theorem C8_overall_changed_flag (find replace : Bytes) (files : List File) :
    ((∀ f ∈ files, f.FileHeader.Name ≠ mission) →
        (transcode find replace files).2 = false) ∧
    (∀ pre f post, files = pre ++ f :: post → f.FileHeader.Name = mission →
        (∀ g ∈ post, g.FileHeader.Name ≠ mission) →
        (transcode find replace files).2 = (replaceInRequiredModules f.data find replace).2) ∧
    (∀ pre f post, files = pre ++ f :: post → f.FileHeader.Name = mission →
        (∀ g ∈ pre, g.FileHeader.Name ≠ mission) → (∀ g ∈ post, g.FileHeader.Name ≠ mission) →
        ((transcode find replace files).2 = true ↔
          (replaceInRequiredModules f.data find replace).2 = true)) := by
  have last : ∀ pre f post, files = pre ++ f :: post → f.FileHeader.Name = mission →
      (∀ g ∈ post, g.FileHeader.Name ≠ mission) →
      (transcode find replace files).2 = (replaceInRequiredModules f.data find replace).2 := by
    intro pre f post hfiles hf hpost
    unfold transcode
    rw [hfiles, entryLoop_snd_append find replace pre f post false hf,
      entryLoop_snd_of_no_mission find replace post _ hpost]
  refine ⟨?_, last, ?_⟩
  · intro hno
    exact entryLoop_snd_of_no_mission find replace files false hno
  · intro pre f post hfiles hf _ hpost
    rw [last pre f post hfiles hf hpost]

theorem C8_overall_changed_flag_witness :
    (transcode (ascii "a") (ascii "b")
        [⟨⟨mission, 0, []⟩, ascii "requiredModules=\x7ba\x7d"⟩,
         ⟨⟨mission, 0, []⟩, ascii "requiredModules=\x7bc\x7d"⟩,
         ⟨⟨ascii "options", 0, []⟩, ascii "requiredModules=\x7ba\x7d"⟩]).2
      = (replaceInRequiredModules (ascii "requiredModules=\x7bc\x7d") (ascii "a") (ascii "b")).2 :=
  (C8_overall_changed_flag (ascii "a") (ascii "b")
    [⟨⟨mission, 0, []⟩, ascii "requiredModules=\x7ba\x7d"⟩,
     ⟨⟨mission, 0, []⟩, ascii "requiredModules=\x7bc\x7d"⟩,
     ⟨⟨ascii "options", 0, []⟩, ascii "requiredModules=\x7ba\x7d"⟩]).2.1
    [⟨⟨mission, 0, []⟩, ascii "requiredModules=\x7ba\x7d"⟩]
    ⟨⟨mission, 0, []⟩, ascii "requiredModules=\x7bc\x7d"⟩
    [⟨⟨ascii "options", 0, []⟩, ascii "requiredModules=\x7ba\x7d"⟩]
    rfl rfl (by decide)

/-- C9 (argument resolution in `main`), with `prog` the program name and the
user arguments after it: two arguments give the default search and replace
strings (after the two notices), three give the third as search string and
the default replace string, four give the third and the fourth; every other
count ends the run with the usage text on standard error and exit status 1,
and nothing of the rest of `main` runs. -/
theorem C9_argument_resolution (prog : Bytes)
    (body : Bytes → Bytes → Bytes → Bytes → List Event) :
    (∀ a b, main [prog, a, b] body =
        [Event.stdout (ascii "Using default search string: " ++ defaultSearch ++ ascii "\n"),
         Event.stdout (ascii "Using default replace string: " ++ defaultReplace ++ ascii "\n")]
        ++ body a b defaultSearch defaultReplace) ∧
    (∀ a b c, main [prog, a, b, c] body = body a b c defaultReplace) ∧
    (∀ a b c d, main [prog, a, b, c, d] body = body a b c d) ∧
    (∀ args : List Bytes, (args.length < 2 ∨ 4 < args.length) →
        main (prog :: args) body = [Event.stderr (usageText prog), Event.exit 1]) ∧
    defaultSearch = ascii "Vietnam Assets Pack by EightBall & Tobi" ∧
    defaultReplace = ascii "[VWV] Vietnam Assets Pack" := by
  refine ⟨?_, ?_, ?_, ?_, rfl, rfl⟩
  · intro a b
    simp [main]
  · intro a b c
    simp [main]
  · intro a b c d
    simp [main]
  · intro args h
    have h2 : (prog :: args).length < 3 ∨ (prog :: args).length > 5 := by
      simp only [List.length_cons]; omega
    simp only [main, if_pos h2, List.getElem?_cons_zero]

theorem C9_argument_resolution_witness :
    main [ascii "mizreplace", ascii "in.miz"] (fun _ _ _ _ => [Event.exit 0])
        = [Event.stderr (usageText (ascii "mizreplace")), Event.exit 1] ∧
    main [ascii "mizreplace", ascii "a", ascii "b", ascii "c", ascii "d", ascii "e"]
        (fun _ _ _ _ => [Event.exit 0])
        = [Event.stderr (usageText (ascii "mizreplace")), Event.exit 1] :=
  ⟨(C9_argument_resolution (ascii "mizreplace") (fun _ _ _ _ => [Event.exit 0])).2.2.2.1
      [ascii "in.miz"] (Or.inl (by decide)),
   (C9_argument_resolution (ascii "mizreplace") (fun _ _ _ _ => [Event.exit 0])).2.2.2.1
      [ascii "a", ascii "b", ascii "c", ascii "d", ascii "e"] (Or.inr (by decide))⟩

/-- C1 (scoping invariant) at the content `requiredModules={a},d={a}` with
`find = a` and `replace = b`: the marker is at 0, the opening brace at 16 and
its matching close at 18, yet the code returns `requiredModules={b},d={b}`,
which does not end with the bytes after index 18 of the content. -/
theorem C1_scoping_fails_after_matching_close :
    IsFirstIndex (ascii "requiredModules=\x7ba\x7d,d=\x7ba\x7d") key 0 ∧
    IsFirstByteFrom (ascii "requiredModules=\x7ba\x7d,d=\x7ba\x7d") lbrace 0 16 ∧
    IsMatchingClose (ascii "requiredModules=\x7ba\x7d,d=\x7ba\x7d") 16 18 ∧
    replaceInRequiredModules (ascii "requiredModules=\x7ba\x7d,d=\x7ba\x7d") (ascii "a") (ascii "b")
      = (ascii "requiredModules=\x7bb\x7d,d=\x7bb\x7d", true) ∧
    ¬ ((ascii "requiredModules=\x7ba\x7d,d=\x7ba\x7d").drop 19 <:+
      (replaceInRequiredModules (ascii "requiredModules=\x7ba\x7d,d=\x7ba\x7d") (ascii "a") (ascii "b")).1) := by
  decide

/-- C2 (nesting correctness) at the content `requiredModules={a},d={a}`: the
opening brace is at 16 and the first return of the depth counter to zero is
at 18, yet the code selects the block that closes at 24, and the depth is
zero at index 18 inside it. -/
theorem C2_selected_close_is_not_first_zero :
    IsFirstIndex (ascii "requiredModules=\x7ba\x7d,d=\x7ba\x7d") key 0 ∧
    IsFirstByteFrom (ascii "requiredModules=\x7ba\x7d,d=\x7ba\x7d") lbrace 0 16 ∧
    IsMatchingClose (ascii "requiredModules=\x7ba\x7d,d=\x7ba\x7d") 16 18 ∧
    selectedBlock (ascii "requiredModules=\x7ba\x7d,d=\x7ba\x7d") = some (16, 24) ∧
    ¬ IsMatchingClose (ascii "requiredModules=\x7ba\x7d,d=\x7ba\x7d") 16 24 ∧
    depthAt (ascii "requiredModules=\x7ba\x7d,d=\x7ba\x7d") 16 18 = 0 := by
  decide

/-- C4 (no-op when the search string is absent from the block) at the content
`requiredModules={a},d={a}` with `find = d` and `replace = e`: the brace block
of the marker is `{a}` (indices 16 to 18), `d` is not empty and does not
occur in it, yet the code returns `requiredModules={a},e={a}` and
`changed = true`. -/
theorem C4_absent_from_block_yet_changed :
    IsFirstIndex (ascii "requiredModules=\x7ba\x7d,d=\x7ba\x7d") key 0 ∧
    IsFirstByteFrom (ascii "requiredModules=\x7ba\x7d,d=\x7ba\x7d") lbrace 0 16 ∧
    IsMatchingClose (ascii "requiredModules=\x7ba\x7d,d=\x7ba\x7d") 16 18 ∧
    ascii "d" ≠ [] ∧
    ¬ ascii "d" <:+: ((ascii "requiredModules=\x7ba\x7d,d=\x7ba\x7d").take 19).drop 16 ∧
    replaceInRequiredModules (ascii "requiredModules=\x7ba\x7d,d=\x7ba\x7d") (ascii "d") (ascii "e")
      = (ascii "requiredModules=\x7ba\x7d,e=\x7ba\x7d", true) := by
  decide

end MizReplace
